import Mathlib

/-!
Shallow embedding of the Evalio scoring engine
(`src/ml/scoring/rubric_scorer.py` and `src/ml/scoring/similarity_scorer.py`).

Text is modelled as Lean `String` at the interfaces and `List Char` inside the
algorithms; numbers are exact rationals (`ℚ`), with Python's 2- and 4-decimal
`round` modelled as round-half-to-even on rationals.  The external TF-IDF
library call (scikit-learn) is modelled as an explicit parameter of type
`Except String ℚ`: `.ok c` is the cosine value the library returns, `.error e`
is the `ValueError` the source catches.
-/

namespace Evalio

/-- Python whitespace for `str.strip`, `str.split` and the regex `\s`,
restricted to the ASCII range: space, tab, newline, carriage return,
vertical tab, form feed. -/
def pyIsSpace (c : Char) : Bool :=
  c.toNat == 32 || c.toNat == 9 || c.toNat == 10 ||
  c.toNat == 13 || c.toNat == 11 || c.toNat == 12

/-- Python `str.strip()`: remove leading and trailing whitespace. -/
def pyStrip (l : List Char) : List Char :=
  ((l.dropWhile pyIsSpace).reverse.dropWhile pyIsSpace).reverse

/-- Python `re.sub(r'\s+', ' ', text)`: replace every maximal run of
whitespace by a single space.  Rendered as a right fold: a whitespace
character is absorbed when the collapsed tail already starts with the
space standing for the rest of its run, and otherwise contributes the
single `' '` for its run. -/
def collapseWs : List Char → List Char
  | [] => []
  | c :: cs =>
    let rest := collapseWs cs
    if pyIsSpace c then
      match rest with
      | [] => [' ']
      | d :: _ => if pyIsSpace d then rest else ' ' :: rest
    else c :: rest

/-- Python `str.split()` (no separator): split on runs of whitespace,
discarding empty fields.  Rendered as a right fold: a non-space character
either starts a fresh word (at the end, or before whitespace) or is
prepended to the word the split of the tail starts with. -/
def pySplit : List Char → List (List Char)
  | [] => []
  | c :: cs =>
    let rest := pySplit cs
    if pyIsSpace c then rest
    else
      match cs with
      | [] => [[c]]
      | d :: _ =>
        if pyIsSpace d then [c] :: rest
        else
          match rest with
          | [] => [[c]]
          | w :: ws => (c :: w) :: ws

/-- Number of words of a Python string, `len(text.split())`. -/
def wordCount (s : String) : Nat := (pySplit s.data).length

/-- Python `round(q, d)`: round to `d` decimal places, ties to even. -/
def rndHalfEven (q : ℚ) : ℤ :=
  let f := ⌊q⌋
  if q - f < 1/2 then f
  else if 1/2 < q - f then f + 1
  else if f % 2 = 0 then f else f + 1

/-- Round a rational to `d` decimal places (Python `round(q, d)`). -/
def roundTo (d : ℕ) (q : ℚ) : ℚ := (rndHalfEven (q * 10 ^ d) : ℚ) / 10 ^ d

theorem rndHalfEven_nonneg {q : ℚ} (h : 0 ≤ q) : 0 ≤ rndHalfEven q := by
  have hf : (0:ℤ) ≤ ⌊q⌋ := by positivity
  unfold rndHalfEven
  dsimp only
  split_ifs <;> omega

theorem rndHalfEven_le {q : ℚ} {n : ℤ} (h : q ≤ (n:ℚ)) : rndHalfEven q ≤ n := by
  have hf : ⌊q⌋ ≤ n := by
    have := Int.floor_le_floor h
    simpa using this
  unfold rndHalfEven
  dsimp only
  split_ifs with h1 h2 h3
  · exact hf
  · have hq : (⌊q⌋:ℚ) < q := by linarith
    have : ⌊q⌋ < n := by exact_mod_cast lt_of_lt_of_le hq h
    omega
  · have hq : (⌊q⌋:ℚ) < q := by linarith
    have : ⌊q⌋ < n := by exact_mod_cast lt_of_lt_of_le hq h
    omega
  · have hq : (⌊q⌋:ℚ) < q := by linarith
    have : ⌊q⌋ < n := by exact_mod_cast lt_of_lt_of_le hq h
    omega

theorem roundTo_nonneg {d : ℕ} {q : ℚ} (h : 0 ≤ q) : 0 ≤ roundTo d q := by
  unfold roundTo
  have h1 : (0:ℚ) ≤ (rndHalfEven (q * 10 ^ d) : ℚ) := by
    exact_mod_cast rndHalfEven_nonneg (by positivity)
  positivity

theorem roundTo_le_one {d : ℕ} {q : ℚ} (h : q ≤ 1) : roundTo d q ≤ 1 := by
  unfold roundTo
  have hpow : (0:ℚ) < 10 ^ d := by positivity
  have h1 : rndHalfEven (q * 10 ^ d) ≤ ((10:ℤ) ^ d) := by
    apply rndHalfEven_le
    push_cast
    nlinarith
  rw [div_le_one hpow]
  exact_mod_cast h1

theorem toNat_ofNat_valid {n : Nat} (h : n.isValidChar) : (Char.ofNat n).toNat = n := by
  rw [Char.ofNat, dif_pos h]
  rfl

/-- Unfolding of `Char.toLower` (ASCII lower-casing, as in Lean core). -/
theorem toLower_def (c : Char) :
    Char.toLower c =
      if 65 ≤ c.toNat ∧ c.toNat ≤ 90 then Char.ofNat (c.toNat + 32) else c := rfl

/-- The code point of `Char.toLower`. -/
theorem toNat_toLower (c : Char) :
    (Char.toLower c).toNat =
      if 65 ≤ c.toNat ∧ c.toNat ≤ 90 then c.toNat + 32 else c.toNat := by
  rw [toLower_def]
  split_ifs with h
  · exact toNat_ofNat_valid (n := c.toNat + 32) (Or.inl (by omega))
  · rfl

theorem toLower_eq_self {c : Char} (h : ¬(65 ≤ c.toNat ∧ c.toNat ≤ 90)) :
    Char.toLower c = c := by
  rw [toLower_def, if_neg h]

theorem toLower_toLower (c : Char) :
    Char.toLower (Char.toLower c) = Char.toLower c := by
  by_cases h : 65 ≤ c.toNat ∧ c.toNat ≤ 90
  · apply toLower_eq_self
    rw [toNat_toLower, if_pos h]
    omega
  · rw [toLower_eq_self h, toLower_eq_self h]

theorem pyIsSpace_toLower (c : Char) : pyIsSpace (Char.toLower c) = pyIsSpace c := by
  unfold pyIsSpace
  rw [toNat_toLower]
  split_ifs with h
  · rw [Bool.eq_iff_iff]
    simp only [Bool.or_eq_true, beq_iff_eq]
    omega
  · rfl

/-- Configuration of `RubricScorer.__init__`; `substring_match` models the
constructor flag named partial + match in the source. -/
structure ScorerCfg where
  case_sensitive : Bool
  substring_match : Bool

/-- Char-list body of `RubricScorer.normalize_text`: strip, collapse
whitespace runs to a single space, lower-case unless case-sensitive. -/
def normChars (case_sensitive : Bool) (text : List Char) : List Char :=
  let t1 := pyStrip text
  let t2 := collapseWs t1
  if case_sensitive then t2 else t2.map Char.toLower

/-- Embedding of `RubricScorer.normalize_text`. -/
def normalize_text (cfg : ScorerCfg) (text : String) : String :=
  ⟨normChars cfg.case_sensitive text.data⟩

/-- Does `l` start with `p`? (helper for Python substring containment). -/
def startsWithL : List Char → List Char → Bool
  | _, [] => true
  | [], _ :: _ => false
  | a :: l, b :: p => a == b && startsWithL l p

/-- Python `needle in hay` substring containment. -/
def containsSub (needle : List Char) : List Char → Bool
  | [] => needle.isEmpty
  | c :: t => startsWithL (c :: t) needle || containsSub needle t

/-- A regex word character `\w` (ASCII model): letter, digit or underscore. -/
def isWordChar (c : Char) : Bool :=
  (65 ≤ c.toNat && c.toNat ≤ 90) || (97 ≤ c.toNat && c.toNat ≤ 122) ||
  (48 ≤ c.toNat && c.toNat ≤ 57) || c.toNat == 95

/-- Is the character at index `i` of `l` a word character (out of range:
no)? -/
def wAt (l : List Char) (i : Nat) : Bool :=
  match l[i]? with
  | some c => isWordChar c
  | none => false

/-- Regex `\b`: a word boundary sits at position `p` of `l` iff exactly one
of the adjacent characters is a word character (string edges count as
non-word). -/
def boundaryAt (l : List Char) (p : Nat) : Bool :=
  (if p = 0 then false else wAt l (p - 1)) != wAt l p

/-- Model of `re.search(r'\b' + re.escape(kw) + r'\b', answer)`: the escaped keyword
occurs literally at some position with word boundaries on both sides. -/
def wordMatch (kw l : List Char) : Bool :=
  (List.range (l.length + 1)).any fun i =>
    boundaryAt l i && boundaryAt l (i + kw.length) &&
      ((l.drop i).take kw.length == kw)

/-- The per-keyword test of `RubricScorer.keyword_match` on already
normalized keyword and answer: substring containment in substring mode,
word-boundary regex search otherwise. -/
def kwTest (substring_match : Bool) (nkw nans : List Char) : Bool :=
  if substring_match then containsSub nkw nans else wordMatch nkw nans

/-- Whether one keyword is found in the student answer (normalizing both),
i.e. the value stored by `RubricScorer.keyword_match` for that keyword. -/
def kwFound (cfg : ScorerCfg) (keyword answer : List Char) : Bool :=
  kwTest cfg.substring_match (normChars cfg.case_sensitive keyword)
    (normChars cfg.case_sensitive answer)

/-- Python `dict` assignment `d[k] = v` on an insertion-ordered association
list: overwrite in place if the key exists, else append. -/
def dictInsert (d : List (String × Bool)) (k : String) (v : Bool) :
    List (String × Bool) :=
  if d.any (fun kv => kv.1 == k) then
    d.map (fun kv => if kv.1 == k then (k, v) else kv)
  else d ++ [(k, v)]

/-- Embedding of `RubricScorer.keyword_match`: normalize the answer once, then fill a
dict mapping each keyword to whether it is found. -/
def keyword_match (cfg : ScorerCfg) (keywords : List String)
    (student_answer : String) : List (String × Bool) :=
  let normalized_answer := normChars cfg.case_sensitive student_answer.data
  keywords.foldl
    (fun ms keyword =>
      dictInsert ms keyword
        (kwTest cfg.substring_match
          (normChars cfg.case_sensitive keyword.data) normalized_answer))
    []

/-- One rubric item (`keypoint`, `keywords`, `weight`, `required`). -/
structure RubricItem where
  keypoint : String
  keywords : List String
  weight : ℚ
  required : Bool

/-- One entry of the `breakdown` list produced by `score_answer`.  The
`required` key is only present in the `missing` branch of the source, hence
`Option`. -/
structure BreakdownItem where
  keypoint : String
  weight : ℚ
  earned : ℚ
  matched_keywords : List String
  missing_keywords : List String
  status : String
  required : Option Bool

/-- Result dictionary of `RubricScorer.score_answer`. -/
structure RubricResult where
  score : ℚ
  max_score : ℚ
  percentage : ℚ
  matched_keypoints : List String
  missing_keypoints : List String
  breakdown : List BreakdownItem

/-- The matched keywords of one rubric item: the dict entries whose value is
true, in dict order. -/
def matchedKeywords (cfg : ScorerCfg) (student_answer : String)
    (item : RubricItem) : List String :=
  ((keyword_match cfg item.keywords student_answer).filter (fun p => p.2)).map
    (fun p => p.1)

/-- The unrounded `earned_points` of one rubric item (line 140 of the
source): `weight * coverage_ratio` when some keyword matched, else 0, where
`coverage_ratio = len(matched_keywords) / len(keywords)`. -/
def itemEarned (cfg : ScorerCfg) (student_answer : String)
    (item : RubricItem) : ℚ :=
  let matched_keywords := matchedKeywords cfg student_answer item
  if matched_keywords.isEmpty then 0
  else
    item.weight *
      (if item.keywords.isEmpty then 0
       else (matched_keywords.length : ℚ) / item.keywords.length)

/-- Did any keyword of the item match? (the branch condition at line 137). -/
def itemMatched (cfg : ScorerCfg) (student_answer : String)
    (item : RubricItem) : Bool :=
  !(matchedKeywords cfg student_answer item).isEmpty

/-- The breakdown entry emitted for one rubric item (lines 145-164). -/
def itemBreakdown (cfg : ScorerCfg) (student_answer : String)
    (item : RubricItem) : BreakdownItem :=
  let keyword_matches := keyword_match cfg item.keywords student_answer
  let matched_keywords := matchedKeywords cfg student_answer item
  if matched_keywords.isEmpty then
    { keypoint := item.keypoint, weight := item.weight, earned := 0,
      matched_keywords := [], missing_keywords := item.keywords,
      status := "missing", required := some item.required }
  else
    let coverage_ratio : ℚ :=
      if item.keywords.isEmpty then 0
      else (matched_keywords.length : ℚ) / item.keywords.length
    { keypoint := item.keypoint, weight := item.weight,
      earned := roundTo 2 (item.weight * coverage_ratio),
      matched_keywords := matched_keywords,
      missing_keywords := (keyword_matches.filter (fun p => !p.2)).map (fun p => p.1),
      status := if coverage_ratio < 1 then "partial" else "complete",
      required := none }

/-- Embedding of `RubricScorer.score_answer`.  The per-item loop is rendered as
map/filter/sum over the rubric in input order; `model_answer` is accepted
and, as in the source, never read. -/
def score_answer (cfg : ScorerCfg) (student_answer model_answer : String)
    (rubric : List RubricItem) : RubricResult :=
  if (pyStrip student_answer.data).isEmpty then
    { score := 0,
      max_score := (rubric.map (fun item => item.weight)).sum,
      percentage := 0,
      matched_keypoints := [],
      missing_keypoints := rubric.map (fun item => item.keypoint),
      breakdown := [] }
  else
    let total_score := (rubric.map (itemEarned cfg student_answer)).sum
    let max_score := (rubric.map (fun item => item.weight)).sum
    let percentage : ℚ := if 0 < max_score then total_score / max_score * 100 else 0
    { score := roundTo 2 total_score,
      max_score := max_score,
      percentage := roundTo 2 percentage,
      matched_keypoints :=
        (rubric.filter (itemMatched cfg student_answer)).map (fun item => item.keypoint),
      missing_keypoints :=
        (rubric.filter (fun item => !itemMatched cfg student_answer item)).map
          (fun item => item.keypoint),
      breakdown := rubric.map (itemBreakdown cfg student_answer) }

/-- Result dictionary of `SimilarityScorer.calculate_similarity`.  The field
`interp` models the result key holding the tier label (named
"interpretation" in the source); `error` is only present on the exception
path. -/
structure SimilarityResult where
  similarity_score : ℚ
  percentage : ℚ
  confidence : ℚ
  interp : String
  error : Option String
  method : String

/-- Embedding of `SimilarityScorer._interpret_similarity`: fixed inclusive thresholds. -/
def interpret_similarity (similarity : ℚ) : String :=
  if 9/10 ≤ similarity then "excellent_match"
  else if 7/10 ≤ similarity then "good_match"
  else if 5/10 ≤ similarity then "moderate_match"
  else if 3/10 ≤ similarity then "weak_match"
  else "poor_match"

/-- Embedding of `SimilarityScorer._calculate_confidence`: length-based heuristic
starting at 1.0.  The `similarity` argument is accepted and, as in the
source, never read. -/
def calculate_confidence (student_answer model_answer : String)
    (similarity : ℚ) : ℚ :=
  let student_words := wordCount student_answer
  let model_words := wordCount model_answer
  let confidence : ℚ := 1
  let confidence :=
    if student_words < 5 then confidence * (6/10)
    else if student_words < 10 then confidence * (8/10)
    else confidence
  if 0 < model_words then
    let length_ratio : ℚ := (student_words : ℚ) / (model_words : ℚ)
    if 3 < length_ratio then confidence * (7/10)
    else if length_ratio < 3/10 then confidence * (8/10)
    else confidence
  else confidence

/-- Embedding of `SimilarityScorer.calculate_similarity`.  Building the TF-IDF vector
space and taking the cosine of the two document vectors happens in
scikit-learn, outside this repository; the embedding takes that external
computation as the argument `tfidf_cosine` (`.error e` is the `ValueError`
caught at line 108, carrying its message).  `additional_context` only
enlarges the corpus handed to the external library, so it does not appear
on the right-hand side. -/
def calculate_similarity (student_answer model_answer : String)
    (additional_context : List String) (tfidf_cosine : Except String ℚ) :
    SimilarityResult :=
  if (pyStrip student_answer.data).isEmpty then
    { similarity_score := 0, percentage := 0, confidence := 1,
      interp := "empty_answer", error := none, method := "tfidf_cosine" }
  else
    match tfidf_cosine with
    | .ok cos =>
      let similarity := max 0 (min 1 cos)
      { similarity_score := roundTo 4 similarity,
        percentage := roundTo 2 (similarity * 100),
        confidence := roundTo 4 (calculate_confidence student_answer model_answer similarity),
        interp := interpret_similarity similarity,
        error := none, method := "tfidf_cosine" }
    | .error e =>
      { similarity_score := 0, percentage := 0, confidence := 1/2,
        interp := "calculation_error", error := some e, method := "tfidf_cosine" }

/-- The configuration held by a successfully constructed `HybridScorer`. -/
structure HybridScorer where
  rubric_weight : ℚ
  similarity_weight : ℚ

/-- Embedding of `HybridScorer.__init__`: validates the weights, raising `ValueError`
(modelled as `.error`) if either is outside [0,1] or the sum deviates from
1 by more than 0.01. -/
def mkHybridScorer (rubric_weight similarity_weight : ℚ) :
    Except String HybridScorer :=
  if ¬(0 ≤ rubric_weight ∧ rubric_weight ≤ 1 ∧
       0 ≤ similarity_weight ∧ similarity_weight ≤ 1) then
    .error "Weights must be between 0 and 1"
  else if 1/100 < |rubric_weight + similarity_weight - 1| then
    .error "Weights must sum to 1.0"
  else .ok ⟨rubric_weight, similarity_weight⟩

/-- The default scorer built by `create_default_hybrid_scorer` (0.6/0.4). -/
def hybridDefault : HybridScorer := ⟨6/10, 4/10⟩

/-- Input dictionary of `HybridScorer.combine_scores`: the two fields it
reads, each optional because the source reads them with `dict.get` and a
default (`percentage` defaults to 0, `confidence` to 1.0). -/
structure ScoreDict where
  percentage : Option ℚ
  confidence : Option ℚ

/-- One of the two component sub-dictionaries of the hybrid result. -/
structure HybridComponent where
  percentage : ℚ
  weight : ℚ
  contribution : ℚ

/-- Result dictionary of `HybridScorer.combine_scores`. -/
structure HybridResult where
  final_percentage : ℚ
  rubric_component : HybridComponent
  similarity_component : HybridComponent
  confidence : ℚ
  method : String
  rubric_details : ScoreDict
  similarity_details : ScoreDict

/-- Embedding of `HybridScorer.combine_scores`. -/
def combine_scores (h : HybridScorer) (rubric_result similarity_result : ScoreDict) :
    HybridResult :=
  let rubric_percentage := rubric_result.percentage.getD 0
  let similarity_percentage := similarity_result.percentage.getD 0
  let final_percentage :=
    rubric_percentage * h.rubric_weight + similarity_percentage * h.similarity_weight
  let rubric_confidence := rubric_result.confidence.getD 1
  let similarity_confidence := similarity_result.confidence.getD 1
  let combined_confidence := (rubric_confidence + similarity_confidence) / 2
  { final_percentage := roundTo 2 final_percentage,
    rubric_component :=
      { percentage := rubric_percentage, weight := h.rubric_weight,
        contribution := roundTo 2 (rubric_percentage * h.rubric_weight) },
    similarity_component :=
      { percentage := similarity_percentage, weight := h.similarity_weight,
        contribution := roundTo 2 (similarity_percentage * h.similarity_weight) },
    confidence := roundTo 4 combined_confidence,
    method := "hybrid_rubric_similarity",
    rubric_details := rubric_result,
    similarity_details := similarity_result }

theorem rndHalfEven_eq_floor {q : ℚ} {f : ℤ} (h1 : ⌊q⌋ = f) (h2 : q - f < 1/2) :
    rndHalfEven q = f := by
  unfold rndHalfEven
  rw [h1, if_pos h2]

theorem rndHalfEven_eq_ceil {q : ℚ} {f : ℤ} (h1 : ⌊q⌋ = f) (h2 : 1/2 < q - f) :
    rndHalfEven q = f + 1 := by
  unfold rndHalfEven
  rw [h1, if_neg (by linarith), if_pos h2]

/-- Claim C9: `score_answer` is a two-run noninterference statement over the
model answer: for any student answer, rubric and configuration, any two
values of `model_answer` produce identical results, since the model answer
never enters the rubric arithmetic. -/
theorem c9_model_answer_noninterference (cfg : ScorerCfg) (sa ma1 ma2 : String)
    (rubric : List RubricItem) :
    score_answer cfg sa ma1 rubric = score_answer cfg sa ma2 rubric := rfl

/-- Claim C7: constructing the hybrid combiner errors out exactly when a
weight is outside [0,1] or the weight sum deviates from 1 by more than
0.01, and in particular the pair (0.5, 0.6) is rejected at construction. -/
theorem c7_hybrid_weight_validation :
    (∀ w1 w2 : ℚ, (∃ e, mkHybridScorer w1 w2 = .error e) ↔
      (w1 < 0 ∨ 1 < w1 ∨ w2 < 0 ∨ 1 < w2 ∨ 1/100 < |w1 + w2 - 1|)) ∧
    mkHybridScorer (1/2) (6/10) = .error "Weights must sum to 1.0" := by
  constructor
  · intro w1 w2
    unfold mkHybridScorer
    by_cases h1 : ¬(0 ≤ w1 ∧ w1 ≤ 1 ∧ 0 ≤ w2 ∧ w2 ≤ 1)
    · rw [if_pos h1]
      simp only [not_and_or, not_le] at h1
      exact ⟨fun _ => by tauto, fun _ => ⟨_, rfl⟩⟩
    · rw [if_neg h1]
      push_neg at h1
      by_cases h2 : 1/100 < |w1 + w2 - 1|
      · rw [if_pos h2]
        exact ⟨fun _ => Or.inr (Or.inr (Or.inr (Or.inr h2))), fun _ => ⟨_, rfl⟩⟩
      · rw [if_neg h2]
        constructor
        · rintro ⟨e, he⟩
          cases he
        · rintro (h | h | h | h | h)
          · exact absurd h (not_lt.2 h1.1)
          · exact absurd h (not_lt.2 h1.2.1)
          · exact absurd h (not_lt.2 h1.2.2.1)
          · exact absurd h (not_lt.2 h1.2.2.2)
          · exact (h2 h).elim
  · unfold mkHybridScorer
    rw [if_neg (by norm_num),
      if_pos (by
        rw [show (1:ℚ)/2 + 6/10 - 1 = 1/10 by norm_num,
          abs_of_nonneg (by norm_num : (0:ℚ) ≤ 1/10)]
        norm_num)]

/-- Claim C3: an empty or all-whitespace student answer short-circuits both
scorers: the rubric scorer returns score 0, `max_score` the sum of all
weights, every keypoint missing and an empty breakdown, and the similarity
scorer returns similarity 0, confidence 1 and the `empty_answer` tier. -/
theorem c3_empty_answer_short_circuit (cfg : ScorerCfg) (sa ma : String)
    (rubric : List RubricItem) (ctx : List String) (cos : Except String ℚ)
    (h : (pyStrip sa.data).isEmpty = true) :
    score_answer cfg sa ma rubric =
      { score := 0, max_score := (rubric.map (fun item => item.weight)).sum,
        percentage := 0, matched_keypoints := [],
        missing_keypoints := rubric.map (fun item => item.keypoint),
        breakdown := [] } ∧
    calculate_similarity sa ma ctx cos =
      { similarity_score := 0, percentage := 0, confidence := 1,
        interp := "empty_answer", error := none, method := "tfidf_cosine" } := by
  unfold score_answer calculate_similarity
  rw [if_pos h, if_pos h]
  exact ⟨rfl, rfl⟩

theorem c3_witness :
    (score_answer ⟨false, true⟩ "   " "model" [⟨"K", ["k"], 2, true⟩]).score = 0 ∧
    (score_answer ⟨false, true⟩ "   " "model" [⟨"K", ["k"], 2, true⟩]).missing_keypoints = ["K"] ∧
    (score_answer ⟨false, true⟩ "   " "model" [⟨"K", ["k"], 2, true⟩]).breakdown = [] ∧
    (calculate_similarity "   " "model" [] (.ok (1/2))).similarity_score = 0 ∧
    (calculate_similarity "   " "model" [] (.ok (1/2))).confidence = 1 ∧
    (calculate_similarity "   " "model" [] (.ok (1/2))).interp = "empty_answer" := by
  have h := c3_empty_answer_short_circuit ⟨false, true⟩ "   " "model"
    [⟨"K", ["k"], 2, true⟩] [] (.ok (1/2)) (by decide)
  rw [h.1, h.2]
  exact ⟨rfl, rfl, rfl, rfl, rfl, rfl⟩

/-- Claim C8: when the external vector-space construction fails (the caught
`ValueError`), `calculate_similarity` returns the recovery result instead of
propagating: similarity 0, confidence 0.5, the `calculation_error` tier and
the diagnostic message in the `error` field. -/
theorem c8_degenerate_vocabulary_recovered (sa ma : String) (ctx : List String)
    (e : String) (h : (pyStrip sa.data).isEmpty = false) :
    calculate_similarity sa ma ctx (.error e) =
      { similarity_score := 0, percentage := 0, confidence := 1/2,
        interp := "calculation_error", error := some e,
        method := "tfidf_cosine" } := by
  unfold calculate_similarity
  rw [if_neg (by simp [h])]

theorem c8_witness :
    calculate_similarity "an answer" "model" [] (.error "empty vocabulary") =
      { similarity_score := 0, percentage := 0, confidence := 1/2,
        interp := "calculation_error", error := some "empty vocabulary",
        method := "tfidf_cosine" } :=
  c8_degenerate_vocabulary_recovered "an answer" "model" [] "empty vocabulary" (by decide)

/-- Claim C5: on every path (empty answer, successful cosine computation,
caught error) the similarity score returned by `calculate_similarity` lies
in [0,1]: the cosine value is clamped by `max 0 (min 1 _)` before rounding
and the other paths return 0. -/
theorem c5_similarity_score_clamped (sa ma : String) (ctx : List String)
    (cos : Except String ℚ) :
    0 ≤ (calculate_similarity sa ma ctx cos).similarity_score ∧
    (calculate_similarity sa ma ctx cos).similarity_score ≤ 1 := by
  unfold calculate_similarity
  split_ifs with h
  · exact ⟨le_refl 0, by norm_num⟩
  · match cos with
    | .ok c =>
      refine ⟨roundTo_nonneg (le_max_left 0 _), roundTo_le_one ?_⟩
      exact max_le (by norm_num) (min_le_left 1 c)
    | .error e => exact ⟨le_refl 0, by norm_num⟩

/-- Claim C2 (amended): `combine_scores` returns the weighted sum of the two
percentages rounded to two decimal places, and the unweighted mean of the
two confidences (missing confidence defaulting to 1.0) rounded to four
decimal places; under the default weights the blend is 0.6/0.4. -/
theorem c2_combine_scores_amended (h : HybridScorer) (rp sp : ℚ)
    (rc sc : Option ℚ) :
    (combine_scores h ⟨some rp, rc⟩ ⟨some sp, sc⟩).final_percentage =
      roundTo 2 (rp * h.rubric_weight + sp * h.similarity_weight) ∧
    (combine_scores h ⟨some rp, rc⟩ ⟨some sp, sc⟩).confidence =
      roundTo 4 ((rc.getD 1 + sc.getD 1) / 2) ∧
    (combine_scores hybridDefault ⟨some rp, rc⟩ ⟨some sp, sc⟩).final_percentage =
      roundTo 2 (rp * (6/10) + sp * (4/10)) :=
  ⟨rfl, rfl, rfl⟩

/-- Claim C2 counterexample: with default weights, a rubric percentage of
33.33 and a similarity percentage of 0, the returned `final_percentage` is
20 (the 2-decimal rounding of 19.998), not the exact weighted sum 19.998:
the claimed exact equality fails. -/
theorem c2_counterexample :
    (combine_scores hybridDefault ⟨some (3333/100), none⟩ ⟨some 0, none⟩).final_percentage ≠
      (3333/100) * (6/10) + 0 * (4/10) := by
  unfold combine_scores hybridDefault
  simp only [Option.getD]
  have hval : ((3333:ℚ)/100 * (6/10) + 0 * (4/10)) = 9999/500 := by norm_num
  rw [hval]
  unfold roundTo
  rw [show ((9999:ℚ)/500 * 10 ^ 2) = 19998/10 by norm_num,
    rndHalfEven_eq_ceil (f := 1999) (by rw [Int.floor_eq_iff]; norm_num) (by norm_num)]
  norm_num

theorem rndHalfEven_intCast (n : ℤ) : rndHalfEven (n : ℚ) = n := by
  unfold rndHalfEven
  rw [Int.floor_intCast, if_pos (by norm_num)]

theorem roundTo_eq_self {d : ℕ} {q : ℚ} {n : ℤ} (h : q * 10 ^ d = (n : ℚ)) :
    roundTo d q = q := by
  unfold roundTo
  rw [h, rndHalfEven_intCast]
  rw [eq_comm, eq_div_iff (by positivity)]
  linarith [h]

/-- Claim C6: for a non-empty student answer on the successful path, with a
non-empty model answer (so the word-count ratio is defined), the returned
confidence is exactly the product of the short-answer factor (0.6 below 5
words, 0.8 below 10, else 1) and the length-ratio factor (0.7 above ratio
3, 0.8 below ratio 0.3, else 1); the 4-decimal rounding is the identity on
all nine products. -/
theorem c6_confidence_penalty_product (sa ma : String) (ctx : List String)
    (c : ℚ) (h1 : (pyStrip sa.data).isEmpty = false) (h2 : 0 < wordCount ma) :
    (calculate_similarity sa ma ctx (.ok c)).confidence =
      (if wordCount sa < 5 then (6/10 : ℚ)
       else if wordCount sa < 10 then 8/10 else 1) *
      (if 3 < (wordCount sa : ℚ) / (wordCount ma : ℚ) then (7/10 : ℚ)
       else if (wordCount sa : ℚ) / (wordCount ma : ℚ) < 3/10 then 8/10
       else 1) := by
  unfold calculate_similarity
  rw [if_neg (by simp [h1])]
  dsimp only
  unfold calculate_confidence
  dsimp only
  rw [if_pos h2]
  split_ifs
  · exact (roundTo_eq_self (n := 4200) (by norm_num)).trans (by ring)
  · exact (roundTo_eq_self (n := 5600) (by norm_num)).trans (by ring)
  · exact (roundTo_eq_self (n := 7000) (by norm_num)).trans (by ring)
  · exact (roundTo_eq_self (n := 4800) (by norm_num)).trans (by ring)
  · exact (roundTo_eq_self (n := 6400) (by norm_num)).trans (by ring)
  · exact (roundTo_eq_self (n := 8000) (by norm_num)).trans (by ring)
  · exact (roundTo_eq_self (n := 6000) (by norm_num)).trans (by ring)
  · exact (roundTo_eq_self (n := 8000) (by norm_num)).trans (by ring)
  · exact (roundTo_eq_self (n := 10000) (by norm_num)).trans (by ring)

theorem c6_witness :
    (calculate_similarity "hi there" "a b c d e f g" [] (.ok (1/2))).confidence
      = 12/25 := by
  have h := c6_confidence_penalty_product "hi there" "a b c d e f g" [] (1/2)
    (by decide) (by decide)
  rw [h, show wordCount "hi there" = 2 from by decide,
    show wordCount "a b c d e f g" = 7 from by decide]
  norm_num

/-- Claim C4: the matched and missing keypoint lists of `score_answer`
partition the rubric's keypoints: their concatenation is a permutation of
the keypoint column of the rubric (every occurrence lands in exactly one of
the two lists), and when the rubric's keypoints are distinct the two lists
are disjoint.  This covers the empty-answer fast path as well. -/
theorem c4_keypoints_partition (cfg : ScorerCfg) (sa ma : String)
    (rubric : List RubricItem) :
    ((score_answer cfg sa ma rubric).matched_keypoints ++
      (score_answer cfg sa ma rubric).missing_keypoints).Perm
        (rubric.map (fun item => item.keypoint)) ∧
    ((rubric.map (fun item => item.keypoint)).Nodup →
      ∀ s, s ∈ (score_answer cfg sa ma rubric).matched_keypoints →
        s ∉ (score_answer cfg sa ma rubric).missing_keypoints) := by
  have hperm : ((score_answer cfg sa ma rubric).matched_keypoints ++
      (score_answer cfg sa ma rubric).missing_keypoints).Perm
        (rubric.map (fun item => item.keypoint)) := by
    unfold score_answer
    split_ifs with h
    · simp
    · dsimp only
      rw [← List.map_append]
      exact (List.filter_append_perm _ rubric).map _
  refine ⟨hperm, fun hnd s hs hs2 => ?_⟩
  have hnd2 : ((score_answer cfg sa ma rubric).matched_keypoints ++
      (score_answer cfg sa ma rubric).missing_keypoints).Nodup :=
    hperm.symm.nodup hnd
  rw [List.nodup_append] at hnd2
  exact hnd2.2.2 hs hs2

theorem c4_witness :
    ((score_answer ⟨false, true⟩ "a" "m"
        [⟨"A", ["a"], 1, false⟩, ⟨"B", ["b"], 1, false⟩]).matched_keypoints ++
      (score_answer ⟨false, true⟩ "a" "m"
        [⟨"A", ["a"], 1, false⟩, ⟨"B", ["b"], 1, false⟩]).missing_keypoints).Perm
        (([⟨"A", ["a"], 1, false⟩, ⟨"B", ["b"], 1, false⟩] : List RubricItem).map
          (fun item => item.keypoint)) ∧
    (∀ s, s ∈ (score_answer ⟨false, true⟩ "a" "m"
        [⟨"A", ["a"], 1, false⟩, ⟨"B", ["b"], 1, false⟩]).matched_keypoints →
      s ∉ (score_answer ⟨false, true⟩ "a" "m"
        [⟨"A", ["a"], 1, false⟩, ⟨"B", ["b"], 1, false⟩]).missing_keypoints) := by
  have h := c4_keypoints_partition ⟨false, true⟩ "a" "m"
    [⟨"A", ["a"], 1, false⟩, ⟨"B", ["b"], 1, false⟩]
  exact ⟨h.1, h.2 (by decide)⟩

/-- First-occurrence deduplication: the key order in which a Python dict is
filled from a list. -/
def firstDedup : List String → List String
  | [] => []
  | k :: ks => k :: (firstDedup ks).filter (fun x => !(x == k))

theorem mem_firstDedup {a : String} : ∀ {l : List String}, a ∈ firstDedup l ↔ a ∈ l := by
  intro l
  induction l with
  | nil => simp [firstDedup]
  | cons k ks ih =>
    simp only [firstDedup, List.mem_cons, List.mem_filter, ih,
      Bool.not_eq_true', beq_eq_false_iff_ne]
    constructor
    · rintro (rfl | ⟨h, _⟩)
      · exact Or.inl rfl
      · exact Or.inr h
    · rintro (rfl | h)
      · exact Or.inl rfl
      · by_cases hk : a = k
        · exact Or.inl hk
        · exact Or.inr ⟨h, hk⟩

theorem length_firstDedup_le : ∀ l : List String, (firstDedup l).length ≤ l.length := by
  intro l
  induction l with
  | nil => simp [firstDedup]
  | cons k ks ih =>
    simp only [firstDedup, List.length_cons]
    have := List.length_filter_le (fun x => !(x == k)) (firstDedup ks)
    omega

theorem firstDedup_eq_self : ∀ {l : List String}, l.Nodup → firstDedup l = l := by
  intro l h
  induction l with
  | nil => rfl
  | cons k ks ih =>
    rw [List.nodup_cons] at h
    rw [firstDedup, ih h.2, List.filter_eq_self.2]
    intro x hx
    simp only [Bool.not_eq_true', beq_eq_false_iff_ne]
    exact fun he => h.1 (he ▸ hx)

/-- Filling a Python dict (as modelled by `dictInsert`) along a keyword list,
starting from a dict whose keys `d` are distinct and whose value at `k` is
`f k`, yields the dict keyed by `d` followed by the unseen first occurrences
of the list, each mapped to its `f` value.  Overwriting is the identity here
because the inserted value is determined by the key. -/
theorem foldl_dictInsert (f : String → Bool) :
    ∀ (ks : List String) (d : List String), d.Nodup →
      ks.foldl (fun ms k => dictInsert ms k (f k)) (d.map (fun x => (x, f x))) =
        (d ++ (firstDedup ks).filter (fun x => !(decide (x ∈ d)))).map
          (fun x => (x, f x)) := by
  intro ks
  induction ks with
  | nil =>
    intro d _
    simp [firstDedup]
  | cons k ks ih =>
    intro d hd
    rw [List.foldl_cons]
    by_cases hk : k ∈ d
    · have hins : dictInsert (d.map (fun x => (x, f x))) k (f k) =
          d.map (fun x => (x, f x)) := by
        unfold dictInsert
        rw [if_pos (by
          simp only [List.any_eq_true, List.mem_map]
          exact ⟨(k, f k), ⟨k, hk, rfl⟩, by simp⟩)]
        rw [List.map_map]
        apply List.map_congr_left
        intro x _
        simp only [Function.comp]
        by_cases hxk : x = k
        · subst hxk
          simp
        · rw [if_neg (by simpa using hxk)]
      rw [hins, ih d hd]
      have hfeq : List.filter (fun a => !decide (a ∈ d) && !(a == k)) (firstDedup ks) =
          List.filter (fun x => !decide (x ∈ d)) (firstDedup ks) := by
        apply List.filter_congr
        intro x _
        by_cases hxd : x ∈ d
        · simp [hxd]
        · have hxk : x ≠ k := fun he => hxd (he ▸ hk)
          simp [hxd, hxk]
      rw [firstDedup, List.filter_cons, if_neg (by simp [hk]), List.filter_filter, hfeq]
    · have hins : dictInsert (d.map (fun x => (x, f x))) k (f k) =
          (d ++ [k]).map (fun x => (x, f x)) := by
        unfold dictInsert
        rw [if_neg (by
          simp only [List.any_eq_true, List.mem_map, not_exists]
          rintro p ⟨⟨x, hx, rfl⟩, hbeq⟩
          exact hk ((by simpa using hbeq : x = k) ▸ hx))]
        rw [List.map_append]
        rfl
      rw [hins, ih (d ++ [k]) (by simp [List.nodup_append, hd, hk])]
      have hfeq : List.filter (fun x => !decide (x ∈ d ++ [k])) (firstDedup ks) =
          List.filter (fun a => !decide (a ∈ d) && !(a == k)) (firstDedup ks) := by
        apply List.filter_congr
        intro x _
        by_cases hxk : x = k
        · subst hxk
          simp
        · by_cases hxd : x ∈ d <;> simp [hxd, hxk]
      rw [firstDedup, List.filter_cons, if_pos (by simp [hk]), List.filter_filter,
        ← hfeq, List.append_assoc, List.singleton_append]

/-- The dict `keyword_match` produces has exactly one entry per distinct keyword, in
first-occurrence order, holding whether that keyword is found. -/
theorem keyword_match_eq (cfg : ScorerCfg) (sa : String) (kws : List String) :
    keyword_match cfg kws sa =
      (firstDedup kws).map (fun k => (k, kwFound cfg k.data sa.data)) := by
  have h := foldl_dictInsert (fun k => kwFound cfg k.data sa.data) kws []
    List.nodup_nil
  simp at h
  exact h

theorem matchedKeywords_eq (cfg : ScorerCfg) (sa : String) (item : RubricItem) :
    matchedKeywords cfg sa item =
      (firstDedup item.keywords).filter (fun k => kwFound cfg k.data sa.data) := by
  unfold matchedKeywords
  rw [keyword_match_eq, List.filter_map, List.map_map]
  simp [Function.comp_def]

theorem matchedKeywords_eq_nil_iff (cfg : ScorerCfg) (sa : String)
    (item : RubricItem) :
    matchedKeywords cfg sa item = [] ↔
      ∀ kw ∈ item.keywords, kwFound cfg kw.data sa.data = false := by
  rw [matchedKeywords_eq, List.filter_eq_nil_iff]
  constructor
  · intro h kw hkw
    have := h kw (mem_firstDedup.2 hkw)
    simpa using this
  · intro h kw hkw
    simp [h kw (mem_firstDedup.1 hkw)]

theorem matchedKeywords_length_le (cfg : ScorerCfg) (sa : String)
    (item : RubricItem) :
    (matchedKeywords cfg sa item).length ≤ item.keywords.length := by
  rw [matchedKeywords_eq]
  exact le_trans (List.length_filter_le _ _) (length_firstDedup_le _)

theorem roundTo_zero (d : ℕ) : roundTo d 0 = 0 := by
  unfold roundTo
  rw [show (0:ℚ) * 10 ^ d = ((0:ℤ):ℚ) by norm_num, rndHalfEven_intCast]
  norm_num

/-- Claim C1 (amended): for a non-empty student answer and a rubric item of
positive weight, `score_answer` emits one breakdown entry per rubric item in
order, the entry stores the earned points rounded to two decimals, and the
pre-rounding earned points satisfy: `0 ≤ earned ≤ weight`; `earned = 0` iff
no keyword of the item matches; and, for an item whose keyword list is
duplicate-free, `earned = weight` iff the list is non-empty and every
keyword matches.  As frozen, the claim fails for empty keyword lists and
for lists with duplicates, because coverage is the number of distinct
matched keywords over the raw list length. -/
theorem c1_item_earned_amended (cfg : ScorerCfg) (sa ma : String)
    (rubric : List RubricItem) (item : RubricItem)
    (hne : (pyStrip sa.data).isEmpty = false) (hw : 0 < item.weight) :
    (score_answer cfg sa ma rubric).breakdown = rubric.map (itemBreakdown cfg sa) ∧
    (itemBreakdown cfg sa item).earned = roundTo 2 (itemEarned cfg sa item) ∧
    (0 ≤ itemEarned cfg sa item ∧ itemEarned cfg sa item ≤ item.weight) ∧
    (itemEarned cfg sa item = 0 ↔
      ∀ kw ∈ item.keywords, kwFound cfg kw.data sa.data = false) ∧
    (item.keywords.Nodup →
      (itemEarned cfg sa item = item.weight ↔
        item.keywords ≠ [] ∧
          ∀ kw ∈ item.keywords, kwFound cfg kw.data sa.data = true)) := by
  have hlen := matchedKeywords_length_le cfg sa item
  have hnil := matchedKeywords_eq_nil_iff cfg sa item
  refine ⟨?_, ?_, ?_, ?_, ?_⟩
  · unfold score_answer
    rw [if_neg (by simp [hne])]
  · by_cases hm : matchedKeywords cfg sa item = []
    · have hE : itemEarned cfg sa item = 0 := by
        unfold itemEarned
        dsimp only
        rw [if_pos (by simp [hm])]
      have hB : (itemBreakdown cfg sa item).earned = 0 := by
        unfold itemBreakdown
        rw [if_pos (by simp [hm])]
      rw [hB, hE, roundTo_zero]
    · have hkne : item.keywords ≠ [] := by
        intro h0
        exact hm (by rw [matchedKeywords_eq, h0]; rfl)
      have hE : itemEarned cfg sa item = item.weight *
          (((matchedKeywords cfg sa item).length : ℚ) / (item.keywords.length : ℚ)) := by
        unfold itemEarned
        dsimp only
        rw [if_neg (by simp [hm]), if_neg (by simp [hkne])]
      have hB : (itemBreakdown cfg sa item).earned = roundTo 2 (item.weight *
          (((matchedKeywords cfg sa item).length : ℚ) / (item.keywords.length : ℚ))) := by
        unfold itemBreakdown
        rw [if_neg (by simp [hm])]
        dsimp only
        rw [if_neg (by simp [hkne])]
      rw [hB, hE]
  · by_cases hm : matchedKeywords cfg sa item = []
    · have hE : itemEarned cfg sa item = 0 := by
        unfold itemEarned
        dsimp only
        rw [if_pos (by simp [hm])]
      rw [hE]
      exact ⟨le_refl 0, hw.le⟩
    · have hkne : item.keywords ≠ [] := by
        intro h0
        exact hm (by rw [matchedKeywords_eq, h0]; rfl)
      have hlenpos : (0:ℚ) < (item.keywords.length : ℚ) := by
        exact_mod_cast List.length_pos.2 hkne
      have hE : itemEarned cfg sa item = item.weight *
          (((matchedKeywords cfg sa item).length : ℚ) / (item.keywords.length : ℚ)) := by
        unfold itemEarned
        dsimp only
        rw [if_neg (by simp [hm]), if_neg (by simp [hkne])]
      rw [hE]
      constructor
      · apply mul_nonneg hw.le
        positivity
      · have hle : ((matchedKeywords cfg sa item).length : ℚ) /
            (item.keywords.length : ℚ) ≤ 1 := by
          rw [div_le_one hlenpos]
          exact_mod_cast hlen
        calc item.weight * (((matchedKeywords cfg sa item).length : ℚ) /
              (item.keywords.length : ℚ))
            ≤ item.weight * 1 := mul_le_mul_of_nonneg_left hle hw.le
          _ = item.weight := mul_one _
  · by_cases hm : matchedKeywords cfg sa item = []
    · have hE : itemEarned cfg sa item = 0 := by
        unfold itemEarned
        dsimp only
        rw [if_pos (by simp [hm])]
      rw [hE]
      exact ⟨fun _ => hnil.1 hm, fun _ => rfl⟩
    · have hkne : item.keywords ≠ [] := by
        intro h0
        exact hm (by rw [matchedKeywords_eq, h0]; rfl)
      have hlenpos : (0:ℚ) < (item.keywords.length : ℚ) := by
        exact_mod_cast List.length_pos.2 hkne
      have hmcpos : (0:ℚ) < ((matchedKeywords cfg sa item).length : ℚ) := by
        exact_mod_cast List.length_pos.2 hm
      have hE : itemEarned cfg sa item = item.weight *
          (((matchedKeywords cfg sa item).length : ℚ) / (item.keywords.length : ℚ)) := by
        unfold itemEarned
        dsimp only
        rw [if_neg (by simp [hm]), if_neg (by simp [hkne])]
      constructor
      · intro h0
        exfalso
        rw [hE] at h0
        have hpos : 0 < item.weight *
            (((matchedKeywords cfg sa item).length : ℚ) / (item.keywords.length : ℚ)) :=
          mul_pos hw (div_pos hmcpos hlenpos)
        linarith
      · intro hall
        exfalso
        obtain ⟨k, hk⟩ := List.exists_mem_of_ne_nil _ hm
        rw [matchedKeywords_eq, List.mem_filter] at hk
        have := hall k (mem_firstDedup.1 hk.1)
        rw [this] at hk
        exact absurd hk.2 (by simp)
  · intro hnd
    have hmeq : matchedKeywords cfg sa item =
        item.keywords.filter (fun k => kwFound cfg k.data sa.data) := by
      rw [matchedKeywords_eq, firstDedup_eq_self hnd]
    by_cases hm : matchedKeywords cfg sa item = []
    · have hE : itemEarned cfg sa item = 0 := by
        unfold itemEarned
        dsimp only
        rw [if_pos (by simp [hm])]
      rw [hE]
      constructor
      · intro h0
        exact absurd h0.symm (ne_of_gt hw)
      · rintro ⟨hkne, hall⟩
        exfalso
        apply hkne
        have hfe : item.keywords.filter (fun k => kwFound cfg k.data sa.data) = [] :=
          hmeq ▸ hm
        rw [List.filter_eq_self.2 (fun a ha => hall a ha)] at hfe
        exact hfe
    · have hkne : item.keywords ≠ [] := by
        intro h0
        exact hm (by rw [matchedKeywords_eq, h0]; rfl)
      have hlenpos : (0:ℚ) < (item.keywords.length : ℚ) := by
        exact_mod_cast List.length_pos.2 hkne
      have hE : itemEarned cfg sa item = item.weight *
          (((matchedKeywords cfg sa item).length : ℚ) / (item.keywords.length : ℚ)) := by
        unfold itemEarned
        dsimp only
        rw [if_neg (by simp [hm]), if_neg (by simp [hkne])]
      rw [hE]
      constructor
      · intro heq
        refine ⟨hkne, ?_⟩
        have hdiv : ((matchedKeywords cfg sa item).length : ℚ) /
            (item.keywords.length : ℚ) = 1 :=
          mul_left_cancel₀ (ne_of_gt hw) (heq.trans (mul_one item.weight).symm)
        have hmc : (matchedKeywords cfg sa item).length = item.keywords.length := by
          have := (div_eq_one_iff_eq (ne_of_gt hlenpos)).1 hdiv
          exact_mod_cast this
        rw [hmeq] at hmc
        have hfil : item.keywords.filter (fun k => kwFound cfg k.data sa.data) =
            item.keywords :=
          List.Sublist.eq_of_length (List.filter_sublist _) hmc
        intro kw hkw
        have hmem : kw ∈ item.keywords.filter (fun k => kwFound cfg k.data sa.data) := by
          rw [hfil]
          exact hkw
        exact (List.mem_filter.1 hmem).2
      · rintro ⟨_, hall⟩
        have hmk : matchedKeywords cfg sa item = item.keywords := by
          rw [hmeq]
          exact List.filter_eq_self.2 (fun a ha => hall a ha)
        rw [hmk, div_self (ne_of_gt hlenpos), mul_one]

theorem c1_witness :
    0 ≤ itemEarned ⟨false, true⟩ "a b" ⟨"K", ["a", "x"], 2, false⟩ ∧
    itemEarned ⟨false, true⟩ "a b" ⟨"K", ["a", "x"], 2, false⟩ ≤
      (⟨"K", ["a", "x"], 2, false⟩ : RubricItem).weight :=
  (c1_item_earned_amended ⟨false, true⟩ "a b" "m" [] ⟨"K", ["a", "x"], 2, false⟩
    (by decide) (by norm_num)).2.2.1

/-- Claim C1 counterexample: with the default configuration and student
answer "a", the item with duplicated keyword list ["a", "a"] has every
keyword matched yet earns 1 of its 2 points (distinct matched count 1 over
raw length 2), and the item with an empty keyword list has all of its
keywords (vacuously) matched yet earns 0 of its 2 points.  Both refute
"earned = weight iff all of the item's keywords matched" as frozen. -/
theorem c1_counterexample :
    ((∀ kw ∈ (["a", "a"] : List String),
        kwFound ⟨false, true⟩ kw.data "a".data = true) ∧
      itemEarned ⟨false, true⟩ "a" ⟨"K", ["a", "a"], 2, false⟩ ≠
        (⟨"K", ["a", "a"], 2, false⟩ : RubricItem).weight) ∧
    ((∀ kw ∈ ([] : List String),
        kwFound ⟨false, true⟩ kw.data "a".data = true) ∧
      itemEarned ⟨false, true⟩ "a" ⟨"K2", [], 2, false⟩ ≠
        (⟨"K2", [], 2, false⟩ : RubricItem).weight) := by
  refine ⟨⟨by decide, ?_⟩, ⟨by decide, ?_⟩⟩
  · unfold itemEarned
    rw [show matchedKeywords ⟨false, true⟩ "a" ⟨"K", ["a", "a"], 2, false⟩ = ["a"]
      from by decide]
    norm_num
  · unfold itemEarned
    rw [show matchedKeywords ⟨false, true⟩ "a" ⟨"K2", [], 2, false⟩ = []
      from by decide]
    norm_num

/-- All whitespace characters of `l` are the plain space character. -/
def SpacesBlank (l : List Char) : Prop := ∀ c ∈ l, pyIsSpace c = true → c = ' '

/-- No two adjacent characters of `l` are both whitespace. -/
def NoAdjSpace (l : List Char) : Prop :=
  l.Chain' (fun a b => pyIsSpace a = false ∨ pyIsSpace b = false)

/-- The first character of `l`, if any, is not whitespace. -/
def HeadNotSpace (l : List Char) : Prop :=
  ∀ c, l.head? = some c → pyIsSpace c = false

/-- The last character of `l`, if any, is not whitespace. -/
def LastNotSpace (l : List Char) : Prop :=
  ∀ c, l.getLast? = some c → pyIsSpace c = false

theorem collapseWs_cons (c : Char) (cs : List Char) :
    collapseWs (c :: cs) =
      if pyIsSpace c then
        match collapseWs cs with
        | [] => [' ']
        | d :: _ => if pyIsSpace d then collapseWs cs else ' ' :: collapseWs cs
      else c :: collapseWs cs := rfl

theorem collapseWs_ne_nil : ∀ {l : List Char}, l ≠ [] → collapseWs l ≠ [] := by
  intro l hl
  cases l with
  | nil => exact absurd rfl hl
  | cons c cs =>
    rw [collapseWs_cons]
    by_cases hsp : pyIsSpace c = true
    · rw [if_pos hsp]
      cases hr : collapseWs cs with
      | nil => simp
      | cons d t =>
        dsimp only
        by_cases hd : pyIsSpace d = true
        · rw [if_pos hd]
          simp
        · rw [if_neg hd]
          simp
    · rw [if_neg hsp]
      simp

theorem headNotSpace_collapseWs {l : List Char} (h : HeadNotSpace l) :
    HeadNotSpace (collapseWs l) := by
  cases l with
  | nil =>
    intro c hc
    simp [collapseWs] at hc
  | cons c cs =>
    have hc : pyIsSpace c = false := h c rfl
    rw [collapseWs_cons, if_neg (by simp [hc])]
    intro x hx
    rw [List.head?_cons] at hx
    cases hx
    exact hc

theorem collapseWs_spacesBlank_noAdj : ∀ l : List Char,
    SpacesBlank (collapseWs l) ∧ NoAdjSpace (collapseWs l) := by
  intro l
  induction l with
  | nil => exact ⟨fun c hc => absurd hc (List.not_mem_nil c), List.chain'_nil⟩
  | cons c cs ih =>
    obtain ⟨ih1, ih2⟩ := ih
    rw [collapseWs_cons]
    by_cases hsp : pyIsSpace c = true
    · rw [if_pos hsp]
      cases hr : collapseWs cs with
      | nil =>
        dsimp only
        refine ⟨?_, List.chain'_singleton _⟩
        intro x hx _
        rw [List.mem_singleton] at hx
        exact hx
      | cons d t =>
        dsimp only
        rw [hr] at ih1 ih2
        by_cases hd : pyIsSpace d = true
        · rw [if_pos hd]
          exact ⟨ih1, ih2⟩
        · rw [if_neg hd]
          refine ⟨?_, ?_⟩
          · intro x hx hxs
            rcases List.mem_cons.1 hx with rfl | hx2
            · rfl
            · exact ih1 x hx2 hxs
          · refine List.chain'_cons'.2 ⟨?_, ih2⟩
            intro y hy
            obtain rfl : d = y := by simpa using hy
            exact Or.inr (by simpa using hd)
    · rw [if_neg hsp]
      refine ⟨?_, ?_⟩
      · intro x hx hxs
        rcases List.mem_cons.1 hx with rfl | hx2
        · exact absurd hxs hsp
        · exact ih1 x hx2 hxs
      · exact List.chain'_cons'.2 ⟨fun y _ => Or.inl (by simpa using hsp), ih2⟩

theorem lastNotSpace_collapseWs : ∀ {l : List Char},
    LastNotSpace l → LastNotSpace (collapseWs l) := by
  intro l
  induction l with
  | nil =>
    intro _ c hc
    simp [collapseWs] at hc
  | cons c cs ih =>
    intro h
    cases cs with
    | nil =>
      have hc : pyIsSpace c = false := h c rfl
      rw [collapseWs_cons, if_neg (by simp [hc])]
      intro x hx
      rw [show collapseWs ([] : List Char) = [] from rfl] at hx
      simp at hx
      rw [← hx]
      exact hc
    | cons d t =>
      have hcs : LastNotSpace (d :: t) := by
        intro x hx
        exact h x (by rw [List.getLast?_cons_cons]; exact hx)
      have ihr := ih hcs
      have hne : collapseWs (d :: t) ≠ [] := collapseWs_ne_nil (by simp)
      rw [collapseWs_cons]
      by_cases hsp : pyIsSpace c = true
      · rw [if_pos hsp]
        cases hr : collapseWs (d :: t) with
        | nil => exact absurd hr hne
        | cons e s =>
          dsimp only
          rw [hr] at ihr
          by_cases he : pyIsSpace e = true
          · rw [if_pos he]
            exact ihr
          · rw [if_neg he]
            intro x hx
            rw [List.getLast?_cons_cons] at hx
            exact ihr x hx
      · rw [if_neg hsp]
        cases hr : collapseWs (d :: t) with
        | nil => exact absurd hr hne
        | cons e s =>
          rw [hr] at ihr
          intro x hx
          rw [List.getLast?_cons_cons] at hx
          exact ihr x hx

theorem collapseWs_eq_self : ∀ {l : List Char},
    SpacesBlank l → NoAdjSpace l → LastNotSpace l → collapseWs l = l := by
  intro l
  induction l with
  | nil => intro _ _ _; rfl
  | cons c cs ih =>
    intro hb hch hl
    have hcs_b : SpacesBlank cs := fun x hx => hb x (List.mem_cons_of_mem c hx)
    have hch' := List.chain'_cons'.1 hch
    have hcs_l : LastNotSpace cs := by
      cases cs with
      | nil =>
        intro x hx
        simp at hx
      | cons d t =>
        intro x hx
        exact hl x (by rw [List.getLast?_cons_cons]; exact hx)
    have hrec := ih hcs_b hch'.2 hcs_l
    rw [collapseWs_cons, hrec]
    by_cases hsp : pyIsSpace c = true
    · rw [if_pos hsp]
      have hcblank : c = ' ' := hb c (List.mem_cons_self c cs) hsp
      cases cs with
      | nil =>
        exfalso
        have hlast := hl c (by simp)
        rw [hlast] at hsp
        cases hsp
      | cons d t =>
        dsimp only
        have hd : pyIsSpace d = false := by
          rcases hch'.1 d (by simp) with h1 | h2
          · rw [h1] at hsp
            cases hsp
          · exact h2
        rw [if_neg (by simp [hd]), hcblank]
    · rw [if_neg hsp]

theorem dropWhile_eq_self_of_head {p : Char → Bool} {l : List Char}
    (h : ∀ c, l.head? = some c → p c = false) : l.dropWhile p = l := by
  cases l with
  | nil => rfl
  | cons c cs => rw [List.dropWhile_cons_of_neg (by simp [h c rfl])]

theorem pyStrip_eq_self {l : List Char} (hh : HeadNotSpace l)
    (hl : LastNotSpace l) : pyStrip l = l := by
  unfold pyStrip
  rw [dropWhile_eq_self_of_head hh,
    dropWhile_eq_self_of_head (fun c hc => hl c (by rw [← List.head?_reverse]; exact hc)),
    List.reverse_reverse]

theorem pyStrip_headNotSpace (l : List Char) : HeadNotSpace (pyStrip l) := by
  intro c hc
  unfold pyStrip at hc
  rw [List.head?_reverse] at hc
  obtain ⟨t, ht⟩ :=
    List.dropWhile_suffix (l := (l.dropWhile pyIsSpace).reverse) pyIsSpace
  have h2 : ((l.dropWhile pyIsSpace).reverse).getLast? = some c := by
    rw [← ht, List.getLast?_append, hc]
    rfl
  rw [List.getLast?_reverse] at h2
  have h3 := List.head?_dropWhile_not pyIsSpace l
  rw [h2] at h3
  exact h3

theorem pyStrip_lastNotSpace (l : List Char) : LastNotSpace (pyStrip l) := by
  intro c hc
  unfold pyStrip at hc
  rw [List.getLast?_reverse] at hc
  have h3 := List.head?_dropWhile_not pyIsSpace ((l.dropWhile pyIsSpace).reverse)
  rw [hc] at h3
  exact h3

theorem spacesBlank_map_toLower {l : List Char} (h : SpacesBlank l) :
    SpacesBlank (l.map Char.toLower) := by
  intro x hx hxs
  rw [List.mem_map] at hx
  obtain ⟨y, hy, rfl⟩ := hx
  rw [pyIsSpace_toLower] at hxs
  rw [h y hy hxs]
  rfl

theorem noAdj_map_toLower {l : List Char} (h : NoAdjSpace l) :
    NoAdjSpace (l.map Char.toLower) := by
  unfold NoAdjSpace at h ⊢
  rw [List.chain'_map]
  refine h.imp ?_
  intro a b hab
  rcases hab with h1 | h1
  · exact Or.inl (by rw [pyIsSpace_toLower]; exact h1)
  · exact Or.inr (by rw [pyIsSpace_toLower]; exact h1)

theorem headNotSpace_map_toLower {l : List Char} (h : HeadNotSpace l) :
    HeadNotSpace (l.map Char.toLower) := by
  intro c hc
  rw [List.head?_map] at hc
  cases hl : l.head? with
  | none =>
    rw [hl] at hc
    cases hc
  | some d =>
    rw [hl] at hc
    cases hc
    rw [pyIsSpace_toLower]
    exact h d hl

theorem lastNotSpace_map_toLower {l : List Char} (h : LastNotSpace l) :
    LastNotSpace (l.map Char.toLower) := by
  intro c hc
  rw [List.getLast?_map] at hc
  cases hl : l.getLast? with
  | none =>
    rw [hl] at hc
    cases hc
  | some d =>
    rw [hl] at hc
    cases hc
    rw [pyIsSpace_toLower]
    exact h d hl

theorem map_toLower_idem (l : List Char) :
    (l.map Char.toLower).map Char.toLower = l.map Char.toLower := by
  rw [List.map_map]
  apply List.map_congr_left
  intro c _
  exact toLower_toLower c

theorem normChars_idem (b : Bool) (t : List Char) :
    normChars b (normChars b t) = normChars b t := by
  have hh := pyStrip_headNotSpace t
  have hl := pyStrip_lastNotSpace t
  have hAB := collapseWs_spacesBlank_noAdj (pyStrip t)
  have hrh : HeadNotSpace (collapseWs (pyStrip t)) := headNotSpace_collapseWs hh
  have hrl : LastNotSpace (collapseWs (pyStrip t)) := lastNotSpace_collapseWs hl
  have hTrue : ∀ u : List Char, normChars true u = collapseWs (pyStrip u) :=
    fun _ => rfl
  have hFalse : ∀ u : List Char,
      normChars false u = (collapseWs (pyStrip u)).map Char.toLower :=
    fun _ => rfl
  cases b with
  | true =>
    simp only [hTrue]
    rw [pyStrip_eq_self hrh hrl]
    exact collapseWs_eq_self hAB.1 hAB.2 hrl
  | false =>
    simp only [hFalse]
    have hh2 := headNotSpace_map_toLower hrh
    have hl2 := lastNotSpace_map_toLower hrl
    have hb2 := spacesBlank_map_toLower hAB.1
    have hc2 := noAdj_map_toLower hAB.2
    rw [pyStrip_eq_self hh2 hl2, collapseWs_eq_self hb2 hc2 hl2, map_toLower_idem]

/-- Claim C10: `normalize_text` is idempotent for both case-sensitivity
settings, and consequently the per-keyword found-value of keyword matching
is unchanged when either the keyword or the answer is already
normalized. -/
theorem c10_normalize_text_idempotent :
    (∀ (cfg : ScorerCfg) (t : String),
      normalize_text cfg (normalize_text cfg t) = normalize_text cfg t) ∧
    (∀ (cfg : ScorerCfg) (kw ans : List Char),
      kwFound cfg (normChars cfg.case_sensitive kw) ans = kwFound cfg kw ans ∧
      kwFound cfg kw (normChars cfg.case_sensitive ans) = kwFound cfg kw ans) := by
  constructor
  · intro cfg t
    unfold normalize_text
    exact congrArg String.mk (normChars_idem cfg.case_sensitive t.data)
  · intro cfg kw ans
    refine ⟨?_, ?_⟩
    · unfold kwFound
      rw [normChars_idem]
    · unfold kwFound
      rw [normChars_idem]

end Evalio
